import Mathlib

/-!
Verification of the host-side Counter driver (`src/host/counter.py`) of the
TimeTagger FPGA-link reference design.

The development shallowly embeds the two algorithmic parts of the driver:

* the channel-LUT builder `_assign_channel_indices` (together with
  `set_lut_channels`'s default map and `get_lut_channels`'s grouping), and
* the streaming decoder `read_data` (dummy-word filtering, run-length gap
  expansion, row splitting with the pending tail, overflow truncation and the
  rolling-matrix slide).

Machine integers are modelled as `Nat`/`Int`; the Python expression
`val & 0b111111` on an arbitrary (possibly negative) `int` equals
`val % 64` with a non-negative result, which is `Int.emod` here.  NaN markers
in the numpy arrays are modelled as `none : Option Nat`, real counts as
`some v`; the counts stored are below `2^31` and hence exact in `float64`, so
`Option Nat` equality faithfully mirrors element-wise array content.
-/

/-- The two shapes a value of the channel-assignment dictionary may take in
`set_lut_channels`: a single `int`, or a `list` of `int`s. -/
inductive ChannelVal where
  | single : Int → ChannelVal
  | multi : List Int → ChannelVal
deriving DecidableEq

/-- The failure modes of `_assign_channel_indices`: the `ValueError` for a
non-dense key set, the per-key range `assert`, the repeated-slot `assert`
inside `process_value`, and the `IndexError` Python would raise when a masked
slot reaches past `result_list`. -/
inductive LutError where
  | keyRange
  | keyBounds
  | collision
  | indexError
deriving DecidableEq

/-- The value list a `ChannelVal` is processed as: `process_value` is called
once on a single `int` and once per element of a `list`. -/
def valsOf : ChannelVal → List Int
  | .single v => [v]
  | .multi vs => vs

/-- Python's `val & 0b111111` on an arbitrary `int`, as a slot index:
reduction mod 64 with a non-negative result. -/
def maskSlot (v : Int) : Nat := (v % 64).toNat

/-- One `process_value` call of `_assign_channel_indices`, acting on the
`result_list` under construction: read slot `p.1` (IndexError when out of
range), require the sentinel `number_of_channels` (collision `assert`
otherwise), then store the channel key `p.2`. -/
def applyAssign (N : Nat) (lut : List Int) (p : Nat × Int) : Except LutError (List Int) :=
  if hp : p.1 < lut.length then
    if lut.get ⟨p.1, hp⟩ = (N : Int) then .ok (lut.set p.1 p.2)
    else .error .collision
  else .error .indexError

/-- The `(masked slot, channel key)` pairs one dictionary item contributes,
in processing order. -/
def itemAssigns (kv : Int × ChannelVal) : List (Nat × Int) :=
  (valsOf kv.2).map (fun v => (maskSlot v, kv.1))

/-- All `(masked slot, channel key)` pairs of the dictionary, in processing
order. -/
def assignments (input : List (Int × ChannelVal)) : List (Nat × Int) :=
  input.flatMap itemAssigns

/-- Folding `process_value` over a list of `(slot, key)` pairs. -/
def assignFold (N : Nat) (lut : List Int) (ps : List (Nat × Int)) :
    Except LutError (List Int) :=
  ps.foldlM (applyAssign N) lut

/-- One iteration of the `for channel_key, values in input_dict.items()` loop:
the key-range `assert`, then `process_value` on each value. -/
def processItem (N : Nat) (lut : List Int) (kv : Int × ChannelVal) :
    Except LutError (List Int) :=
  if 0 ≤ kv.1 ∧ kv.1 < (N : Int) then
    (valsOf kv.2).foldlM (fun l v => applyAssign N l (maskSlot v, kv.1)) lut
  else .error .keyBounds

/-- `Counter._assign_channel_indices`: start from `result_list` holding the
sentinel `number_of_channels` in all `lut_channels_depth` slots, check the
dense-key condition, process every item, and return the flat LUT together
with `len(input_dict)`.  The input dictionary is modelled as its item list in
insertion order. -/
def assign_channel_indices (N D : Nat) (input : List (Int × ChannelVal)) :
    Except LutError (List Int × Nat) :=
  if ∀ kv ∈ input, 0 ≤ kv.1 ∧ kv.1 < (input.length : Int) then
    (input.foldlM (processItem N) (List.replicate D (N : Int))).map
      (fun lut => (lut, input.length))
  else .error .keyRange

/-- The default assignment built by `set_lut_channels(None)`:
`{i: i + 1 for i in range(self.number_of_channels)}`. -/
def defaultChannels (N : Nat) : List (Int × ChannelVal) :=
  (List.range N).map (fun (i : Nat) => ((i : Int), ChannelVal.single ((i : Int) + 1)))

/-- The slot indices holding channel `c`, in ascending order — the list
`get_lut_channels`'s `list_to_dict` accumulates for key `c` by appending
`enumerate` indices. -/
def slotIndices (lut : List Int) (c : Int) : List Nat :=
  (List.range lut.length).filter (fun i => lut.getD i 0 = c)

/-- Insert into a sorted list of keys (ascending). -/
def insertSorted (x : Int) : List Int → List Int
  | [] => [x]
  | y :: ys => if x ≤ y then x :: y :: ys else y :: insertSorted x ys

/-- Insertion sort on channel keys, modelling Python's `sorted`. -/
def sortInts : List Int → List Int
  | [] => []
  | x :: xs => insertSorted x (sortInts xs)

/-- `get_lut_channels`'s `list_to_dict` applied to a read-back LUT: group the
slot indices by stored value, keeping only values below
`number_of_channels`, and present the groups sorted by key ascending
(`dict(sorted(result_dict.items()))`). -/
def listToDict (N : Nat) (lut : List Int) : List (Int × List Nat) :=
  (sortInts ((lut.filter (fun v => v < (N : Int))).dedup)).map
    (fun c => (c, slotIndices lut c))

/-- Plain overwrite of the LUT by a list of `(slot, key)` pairs, used to state
what a successful `_assign_channel_indices` run produces. -/
def writeAll (lut : List Int) (ps : List (Nat × Int)) : List Int :=
  ps.foldl (fun l p => l.set p.1 p.2) lut

/-- Replacing every value of the assignment dictionary by its masked slot
`v & 0b111111`. -/
def maskVals : ChannelVal → ChannelVal
  | .single v => .single ((maskSlot v : Nat) : Int)
  | .multi vs => .multi (vs.map (fun v => ((maskSlot v : Nat) : Int)))

/-- The decoder state held by the `Counter` object between `read_data` calls:
`number_of_desired_channels` (the `K` of the spec), `capture_size`, the
rolling matrix `data_array` (one list per channel, NaN as `none`) and the
pending tail `remaining_counters_array`. -/
structure DecState where
  number_of_desired_channels : Nat
  capture_size : Nat
  data_array : List (List (Option Nat))
  remaining_counters_array : List (Option Nat)
deriving DecidableEq

attribute [ext] DecState

/-- The scalar expansion of one non-zero raw word in `read_data`'s loop:
a word with bit 31 clear contributes `val` missing markers
(`np.full(missed_data, np.nan)`), a word with bit 31 set contributes the
single count `val & 0x7FFFFFFF`. -/
def expandWord (w : Nat) : List (Option Nat) :=
  if w &&& 0x80000000 = 0 then List.replicate w none
  else [some (w &&& 0x7FFFFFFF)]

/-- The working sequence `concat_data` of one `read_data` call: the carried
pending tail, followed by the expansion of every non-zero word of the burst
in order (`burst_read_data[burst_read_data != 0]`). -/
def workingSeq (rem : List (Option Nat)) (burst : List Nat) : List (Option Nat) :=
  rem ++ (burst.filter (fun w => w ≠ 0)).flatMap expandWord

/-- One row of the matrix slide: `data_array[:, added_arrays_len:]` for this
channel, followed by this channel's entries of
`np.reshape(added_data, (rows, K)).T` — element `t` of the new part is
`added_data[t * K + ch]`. -/
def slideRow (K rows : Nat) (added : List (Option Nat)) (ch : Nat)
    (row : List (Option Nat)) : List (Option Nat) :=
  row.drop rows ++ (List.range rows).map (fun t => added.getD (t * K + ch) none)

/-- The matrix slide `np.concatenate((data_array[:, rows:], new.T), axis=1)`,
channel by channel. -/
def slideMatrix (K rows : Nat) (added : List (Option Nat)) :
    Nat → List (List (Option Nat)) → List (List (Option Nat))
  | _, [] => []
  | ch, row :: rest => slideRow K rows added ch row :: slideMatrix K rows added (ch + 1) rest

/-- `read_data`'s local `added_arrays_len`: the number of complete rows the
working sequence holds, `len(concat_data) // self.number_of_desired_channels`. -/
def addedRows (s : DecState) (burst : List Nat) : Nat :=
  (workingSeq s.remaining_counters_array burst).length / s.number_of_desired_channels

/-- `read_data`'s local `added_data`: the first
`added_arrays_len * number_of_desired_channels` scalars of the working
sequence, `concat_data[0:added_data_len]`. -/
def addedData (s : DecState) (burst : List Nat) : List (Option Nat) :=
  (workingSeq s.remaining_counters_array burst).take
    (addedRows s burst * s.number_of_desired_channels)

/-- `read_data`'s overflow truncation of `added_data`: when more than
`capture_size` rows were completed, keep only the last
`capture_size * number_of_desired_channels` scalars
(`added_data[-self.capture_size * self.number_of_desired_channels:]`). -/
def truncatedData (s : DecState) (burst : List Nat) : List (Option Nat) :=
  if s.capture_size < addedRows s burst then
    (addedData s burst).drop (addedRows s burst * s.number_of_desired_channels
      - s.capture_size * s.number_of_desired_channels)
  else addedData s burst

/-- `Counter.read_data`, acting on the decoder state, with the concatenated
word sequence of the chunked burst reads as input: filter out dummy zero
words, expand, split off complete rows, keep the remainder as the new pending
tail, truncate to the most recent `capture_size` rows on overflow, and slide
the rolling matrix. -/
def read_data (s : DecState) (burst : List Nat) : DecState :=
  { s with
    data_array := slideMatrix s.number_of_desired_channels
      (min (addedRows s burst) s.capture_size) (truncatedData s burst) 0 s.data_array
    remaining_counters_array := (workingSeq s.remaining_counters_array burst).drop
      (addedRows s burst * s.number_of_desired_channels) }

/-- The decoder state after `reset_FPGA_module`: an all-NaN
`K × capture_size` matrix and an empty pending tail. -/
def initState (K capture : Nat) : DecState :=
  { number_of_desired_channels := K
    capture_size := capture
    data_array := List.replicate K (List.replicate capture none)
    remaining_counters_array := [] }

/-- The spec's description of the expansion of one non-zero word, stated in
its own words for comparison with the source's `expandWord`: bit 31 set
means one scalar holding the low 31 bits, bit 31 clear means the word's
value many missing markers, the gap count not divided by the channel
count. -/
def expandWordRef (w : Nat) : List (Option Nat) :=
  if 2 ^ 31 ≤ w then [some (w % 2 ^ 31)] else List.replicate w none

example : maskSlot (-4) = 60 := by decide

example : assign_channel_indices 8 8 [((0 : Int), ChannelVal.single 1)]
    = .ok ([8, 0, 8, 8, 8, 8, 8, 8], 1) := by rfl

example : assign_channel_indices 8 8
    [((0 : Int), ChannelVal.single 1), ((0 : Int), ChannelVal.single 1)]
    = .error .collision := by rfl

example : assign_channel_indices 8 8 [((1 : Int), ChannelVal.single 1)]
    = .error .keyRange := by rfl

example : listToDict 8 [8, 0, 8, 1, 1, 8, 8, 8] = [(0, [1]), (1, [3, 4])] := by decide

example : expandWord 0x80000005 = [some 5] := by decide

example : expandWord 3 = [none, none, none] := by decide

example : (read_data (initState 1 10) [3, 0x80000005]).data_array
    = [List.replicate 6 none ++ [none, none, none, some 5]] := by decide

example : (read_data (initState 3 10) [0x80000001, 0x80000002, 0x80000003,
    0x80000004]).remaining_counters_array = [some 4] := by decide

example : (read_data (read_data (initState 3 10) [0x80000001, 0x80000002,
    0x80000003, 0x80000004]) [0x80000005, 0x80000006]).data_array
    = [List.replicate 8 none ++ [some 1, some 4],
       List.replicate 8 none ++ [some 2, some 5],
       List.replicate 8 none ++ [some 3, some 6]] := by decide

example : (read_data (initState 1 2) [0x80000001, 0x80000002, 0x80000003,
    0x80000004, 0x80000005]).data_array = [[some 4, some 5]] := by decide

example : (read_data (initState 2 3) [0x80000001, 0x80000002, 0x80000003,
    0x80000004]).data_array
    = [[none, some 1, some 3], [none, some 2, some 4]] := by decide

lemma getD_of_lt {α : Type} {l : List α} {i : Nat} (d : α) (h : i < l.length) :
    l.getD i d = l.get ⟨i, h⟩ := by
  simp [List.getD_eq_getElem?_getD, List.getElem?_eq_getElem h, List.get_eq_getElem]

lemma getD_set {α : Type} (l : List α) (i j : Nat) (a d : α) :
    (l.set i a).getD j d = if i = j ∧ i < l.length then a else l.getD j d := by
  by_cases hij : i = j
  · subst hij
    by_cases hi : i < l.length
    · simp [List.getD_eq_getElem?_getD, List.getElem?_set, hi]
    · have hnone : l[i]? = none := List.getElem?_eq_none (le_of_not_lt hi)
      simp [List.getD_eq_getElem?_getD, List.getElem?_set, hi, hnone]
  · simp [List.getD_eq_getElem?_getD, List.getElem?_set, hij]

lemma writeAll_cons (lut : List Int) (p : Nat × Int) (ps : List (Nat × Int)) :
    writeAll lut (p :: ps) = writeAll (lut.set p.1 p.2) ps := rfl

lemma length_writeAll (ps : List (Nat × Int)) :
    ∀ lut : List Int, (writeAll lut ps).length = lut.length := by
  induction ps with
  | nil => intro lut; rfl
  | cons p ps ih => intro lut; rw [writeAll_cons, ih, List.length_set]

lemma writeAll_getD_notmem (ps : List (Nat × Int)) :
    ∀ (lut : List Int) (i : Nat), (∀ p ∈ ps, p.1 ≠ i) →
      (writeAll lut ps).getD i 0 = lut.getD i 0 := by
  induction ps with
  | nil => intro lut i _; rfl
  | cons p ps ih =>
    intro lut i h
    rw [writeAll_cons, ih _ i (fun q hq => h q (List.mem_cons_of_mem p hq)), getD_set]
    have hne : ¬ (p.1 = i ∧ p.1 < lut.length) :=
      fun hc => h p (List.mem_cons_self p ps) hc.1
    rw [if_neg hne]

lemma writeAll_getD_mem (ps : List (Nat × Int)) :
    ∀ (lut : List Int) (p : Nat × Int),
      (ps.map Prod.fst).Nodup → (∀ q ∈ ps, q.1 < lut.length) → p ∈ ps →
      (writeAll lut ps).getD p.1 0 = p.2 := by
  induction ps with
  | nil => intro lut p _ _ hp; cases hp
  | cons q ps ih =>
    intro lut p hnd hlt hp
    have hnd' : (q.1 :: ps.map Prod.fst).Nodup := by simpa using hnd
    rw [writeAll_cons]
    rcases List.mem_cons.1 hp with rfl | hp'
    · have hnotin : ∀ r ∈ ps, r.1 ≠ p.1 := by
        intro r hr hri
        exact (List.nodup_cons.1 hnd').1 (hri ▸ List.mem_map_of_mem Prod.fst hr)
      rw [writeAll_getD_notmem ps _ _ hnotin, getD_set,
        if_pos ⟨rfl, hlt p (List.mem_cons_self p ps)⟩]
    · exact ih _ p (List.nodup_cons.1 hnd').2
        (fun r hr => by rw [List.length_set]; exact hlt r (List.mem_cons_of_mem q hr)) hp'

lemma assignFold_ok_iff (N : Nat) (ps : List (Nat × Int)) :
    ∀ (lut r : List Int), (∀ p ∈ ps, p.2 ≠ (N : Int)) →
      (assignFold N lut ps = .ok r ↔
        (∀ p ∈ ps, p.1 < lut.length ∧ lut.getD p.1 0 = (N : Int))
          ∧ (ps.map Prod.fst).Nodup ∧ r = writeAll lut ps) := by
  induction ps with
  | nil =>
    intro lut r _
    constructor
    · intro h
      exact ⟨by simp, by simp, (Except.ok.inj h).symm⟩
    · rintro ⟨_, _, rfl⟩; rfl
  | cons p ps ih =>
    intro lut r hkey
    have hkp : p.2 ≠ (N : Int) := hkey p (List.mem_cons_self p ps)
    have hcons : assignFold N lut (p :: ps) =
        applyAssign N lut p >>= fun l => assignFold N l ps := by
      simp [assignFold, List.foldlM_cons]
    by_cases hp : p.1 < lut.length
    · by_cases hv : lut.getD p.1 0 = (N : Int)
      · have happ : applyAssign N lut p = .ok (lut.set p.1 p.2) := by
          rw [applyAssign, dif_pos hp, if_pos (by rw [← getD_of_lt 0 hp]; exact hv)]
        rw [hcons, happ, show ((Except.ok (lut.set p.1 p.2) : Except LutError (List Int))
            >>= fun l => assignFold N l ps) = assignFold N (lut.set p.1 p.2) ps from rfl,
          ih (lut.set p.1 p.2) r (fun q hq => hkey q (List.mem_cons_of_mem p hq))]
        constructor
        · rintro ⟨hall, hnd, hr⟩
          refine ⟨?_, ?_, hr⟩
          · intro q hq
            rcases List.mem_cons.1 hq with rfl | hq'
            · exact ⟨hp, hv⟩
            · obtain ⟨hql, hqv⟩ := hall q hq'
              rw [List.length_set] at hql
              rw [getD_set] at hqv
              by_cases hqe : p.1 = q.1
              · rw [if_pos ⟨hqe, hp⟩] at hqv
                exact absurd hqv hkp
              · rw [if_neg (fun hc => hqe hc.1)] at hqv
                exact ⟨hql, hqv⟩
          · rw [List.map_cons, List.nodup_cons]
            refine ⟨?_, hnd⟩
            intro hmem
            obtain ⟨q, hq, hq1⟩ := List.mem_map.1 hmem
            obtain ⟨_, hqv⟩ := hall q hq
            rw [getD_set, if_pos ⟨hq1.symm, hp⟩] at hqv
            exact hkp hqv
        · rintro ⟨hall, hnd, hr⟩
          rw [List.map_cons, List.nodup_cons] at hnd
          refine ⟨?_, hnd.2, hr⟩
          intro q hq
          obtain ⟨hql, hqv⟩ := hall q (List.mem_cons_of_mem p hq)
          have hqe : p.1 ≠ q.1 := by
            intro hc
            exact hnd.1 (hc ▸ List.mem_map_of_mem Prod.fst hq)
          rw [List.length_set, getD_set, if_neg (fun hc => hqe hc.1)]
          exact ⟨hql, hqv⟩
      · have happ : applyAssign N lut p = .error .collision := by
          rw [applyAssign, dif_pos hp, if_neg (by rw [← getD_of_lt 0 hp]; exact hv)]
        rw [hcons, happ]
        constructor
        · intro h; cases h
        · rintro ⟨hall, _, _⟩
          exact absurd (hall p (List.mem_cons_self p ps)).2 hv
    · have happ : applyAssign N lut p = .error .indexError := by
        rw [applyAssign, dif_neg hp]
      rw [hcons, happ]
      constructor
      · intro h; cases h
      · rintro ⟨hall, _, _⟩
        exact absurd (hall p (List.mem_cons_self p ps)).1 hp

lemma processItem_eq (N : Nat) (lut : List Int) (kv : Int × ChannelVal) :
    processItem N lut kv =
      if 0 ≤ kv.1 ∧ kv.1 < (N : Int) then assignFold N lut (itemAssigns kv)
      else .error .keyBounds := by
  by_cases h : 0 ≤ kv.1 ∧ kv.1 < (N : Int)
  · simp [processItem, h, itemAssigns, assignFold, List.foldlM_map]
  · simp [processItem, h]

lemma itemsFold_ok_iff (N : Nat) (input : List (Int × ChannelVal)) :
    ∀ (lut r : List Int),
      input.foldlM (processItem N) lut = .ok r ↔
        (∀ kv ∈ input, 0 ≤ kv.1 ∧ kv.1 < (N : Int))
          ∧ assignFold N lut (assignments input) = .ok r := by
  induction input with
  | nil =>
    intro lut r
    simp [assignments, assignFold, List.foldlM_nil, eq_comm]
  | cons kv input ih =>
    intro lut r
    rw [List.foldlM_cons, processItem_eq]
    have hsplit : assignFold N lut (assignments (kv :: input)) =
        assignFold N lut (itemAssigns kv) >>= fun l => assignFold N l (assignments input) := by
      have hflat : assignments (kv :: input) = itemAssigns kv ++ assignments input := by
        simp [assignments]
      rw [hflat, assignFold, List.foldlM_append]; rfl
    by_cases hk : 0 ≤ kv.1 ∧ kv.1 < (N : Int)
    · rw [if_pos hk, hsplit]
      cases happ : assignFold N lut (itemAssigns kv) with
      | ok lut1 =>
        rw [show ((Except.ok lut1 : Except LutError (List Int))
            >>= fun l => List.foldlM (processItem N) l input)
            = List.foldlM (processItem N) lut1 input from rfl,
          show ((Except.ok lut1 : Except LutError (List Int))
            >>= fun l => assignFold N l (assignments input))
            = assignFold N lut1 (assignments input) from rfl, ih lut1 r]
        simp [List.forall_mem_cons, hk, and_assoc]
      | error e =>
        rw [show ((Except.error e : Except LutError (List Int))
            >>= fun l => List.foldlM (processItem N) l input)
            = Except.error e from rfl,
          show ((Except.error e : Except LutError (List Int))
            >>= fun l => assignFold N l (assignments input))
            = Except.error e from rfl]
        constructor
        · intro h; cases h
        · rintro ⟨_, h⟩; cases h
    · rw [if_neg hk]
      constructor
      · intro h; cases h
      · rintro ⟨hall, _⟩
        exact absurd (hall kv (List.mem_cons_self kv input)) hk

lemma assignments_key_mem {input : List (Int × ChannelVal)} {p : Nat × Int}
    (hp : p ∈ assignments input) : ∃ kv ∈ input, p.2 = kv.1 := by
  obtain ⟨kv, hkv, hpm⟩ := List.mem_flatMap.1 hp
  obtain ⟨v, _, hpe⟩ := List.mem_map.1 hpm
  exact ⟨kv, hkv, by rw [← hpe]⟩

lemma replicate_cond (N D : Nat) (ps : List (Nat × Int)) :
    (∀ p ∈ ps, p.1 < (List.replicate D (N : Int)).length
        ∧ (List.replicate D (N : Int)).getD p.1 0 = (N : Int))
      ↔ ∀ p ∈ ps, p.1 < D := by
  constructor
  · intro h p hp; simpa using (h p hp).1
  · intro h p hp
    refine ⟨by simpa using h p hp, ?_⟩
    simp [List.getD_eq_getElem?_getD, List.getElem?_replicate, h p hp]

lemma maskSlot_mask (v : Int) : maskSlot ((maskSlot v : Nat) : Int) = maskSlot v := by
  unfold maskSlot
  have h1 : (0 : Int) ≤ v % 64 := Int.emod_nonneg v (by norm_num)
  have h2 : v % 64 < 64 := Int.emod_lt_of_pos v (by norm_num)
  rw [Int.toNat_of_nonneg h1, Int.emod_eq_of_lt h1 h2]

lemma maskSlot_of_lt {n : Nat} (h : n < 64) : maskSlot (n : Int) = n := by
  unfold maskSlot
  rw [Int.emod_eq_of_lt (Int.natCast_nonneg n) (by exact_mod_cast h)]
  simp

lemma processItem_maskVals (N : Nat) (lut : List Int) (kv : Int × ChannelVal) :
    processItem N lut (kv.1, maskVals kv.2) = processItem N lut kv := by
  unfold processItem
  by_cases hk : 0 ≤ kv.1 ∧ kv.1 < (N : Int)
  · rw [if_pos hk, if_pos hk]
    have hvals : valsOf (maskVals kv.2)
        = (valsOf kv.2).map (fun v => ((maskSlot v : Nat) : Int)) := by
      cases kv.2 <;> simp [valsOf, maskVals]
    rw [hvals, List.foldlM_map]
    congr 1
    funext l v
    rw [maskSlot_mask]
  · rw [if_neg hk, if_neg hk]

lemma mem_insertSorted {x y : Int} {l : List Int} :
    y ∈ insertSorted x l ↔ y = x ∨ y ∈ l := by
  induction l with
  | nil => simp [insertSorted]
  | cons z l ih =>
    by_cases h : x ≤ z
    · simp [insertSorted, h]
    · simp only [insertSorted, if_neg h, List.mem_cons, ih]
      tauto

lemma mem_sortInts {y : Int} {l : List Int} : y ∈ sortInts l ↔ y ∈ l := by
  induction l with
  | nil => simp [sortInts]
  | cons x l ih => simp [sortInts, mem_insertSorted, ih]

lemma mem_slotIndices {lut : List Int} {c : Int} {s : Nat} :
    s ∈ slotIndices lut c ↔ s < lut.length ∧ lut.getD s 0 = c := by
  unfold slotIndices
  rw [List.mem_filter, List.mem_range]
  simp

lemma mem_listToDict (N : Nat) (lut : List Int) (c : Int) (slots : List Nat) :
    (c, slots) ∈ listToDict N lut ↔
      c ∈ lut ∧ c < (N : Int) ∧ slots = slotIndices lut c := by
  unfold listToDict
  rw [List.mem_map]
  constructor
  · rintro ⟨c2, hc2, heq⟩
    have hc : c2 = c := congrArg Prod.fst heq
    subst hc
    have hs : slots = slotIndices lut c2 := (congrArg Prod.snd heq).symm
    rw [mem_sortInts, List.mem_dedup, List.mem_filter] at hc2
    exact ⟨hc2.1, by simpa using hc2.2, hs⟩
  · rintro ⟨hmem, hlt, rfl⟩
    refine ⟨c, ?_, rfl⟩
    rw [mem_sortInts, List.mem_dedup, List.mem_filter]
    exact ⟨hmem, by simpa⟩

/-- Full characterization of a successful `_assign_channel_indices` run:
dense keys, keys in `[0, number_of_channels)`, masked slots inside the LUT,
no two masked slots colliding, and the result the overwrite of the
all-sentinel LUT by the `(slot, key)` assignments, with `len(input_dict)` as
the desired-channel count. -/
lemma assign_ok_iff (N D : Nat) (input : List (Int × ChannelVal))
    (lut : List Int) (K : Nat) :
    assign_channel_indices N D input = .ok (lut, K) ↔
      (∀ kv ∈ input, 0 ≤ kv.1 ∧ kv.1 < (input.length : Int))
      ∧ (∀ kv ∈ input, 0 ≤ kv.1 ∧ kv.1 < (N : Int))
      ∧ (∀ p ∈ assignments input, p.1 < D)
      ∧ ((assignments input).map Prod.fst).Nodup
      ∧ lut = writeAll (List.replicate D (N : Int)) (assignments input)
      ∧ K = input.length := by
  unfold assign_channel_indices
  by_cases hdense : ∀ kv ∈ input, 0 ≤ kv.1 ∧ kv.1 < (input.length : Int)
  · rw [if_pos hdense]
    cases hfold : input.foldlM (processItem N) (List.replicate D (N : Int)) with
    | ok r =>
      obtain ⟨hrange, hassign⟩ := (itemsFold_ok_iff N input _ r).1 hfold
      have hkey : ∀ p ∈ assignments input, p.2 ≠ (N : Int) := by
        intro p hp
        obtain ⟨kv, hkv, hpe⟩ := assignments_key_mem hp
        have := (hrange kv hkv).2
        omega
      obtain ⟨hcond, hnd, hr⟩ := (assignFold_ok_iff N (assignments input) _ r hkey).1 hassign
      constructor
      · intro h
        have hinj : r = lut ∧ input.length = K := by
          have := h
          simp [Except.map] at this
          exact ⟨this.1, this.2⟩
        exact ⟨hdense, hrange, (replicate_cond N D _).1 hcond, hnd,
          by rw [← hinj.1, hr], hinj.2.symm⟩
      · rintro ⟨_, _, _, _, hlut, hK⟩
        simp [Except.map, hlut, hr, hK]
    | error e =>
      constructor
      · intro h; simp [Except.map] at h
      · rintro ⟨_, hrange, hD, hnd, hlut, hK⟩
        have hkey : ∀ p ∈ assignments input, p.2 ≠ (N : Int) := by
          intro p hp
          obtain ⟨kv, hkv, hpe⟩ := assignments_key_mem hp
          have := (hrange kv hkv).2
          omega
        have : input.foldlM (processItem N) (List.replicate D (N : Int))
            = .ok (writeAll (List.replicate D (N : Int)) (assignments input)) :=
          (itemsFold_ok_iff N input _ _).2 ⟨hrange,
            (assignFold_ok_iff N (assignments input) _ _ hkey).2
              ⟨(replicate_cond N D _).2 hD, hnd, rfl⟩⟩
        rw [hfold] at this
        cases this
  · rw [if_neg hdense]
    constructor
    · intro h; cases h
    · rintro ⟨hd, _⟩
      exact absurd hd hdense

lemma foldlM_congr_fn {α β : Type} {f g : β → α → Except LutError β}
    (h : ∀ b a, f b a = g b a) :
    ∀ (l : List α) (init : β), l.foldlM f init = l.foldlM g init := by
  intro l
  induction l with
  | nil => intro init; rfl
  | cons x xs ih =>
    intro init
    rw [List.foldlM_cons, List.foldlM_cons, h init x]
    cases g init x with
    | ok b => exact ih b
    | error e => rfl

/-- Claim C1, counterexample: the assignment `{0: -4}` has a physical value
far outside `[0, 8)`, yet `_assign_channel_indices` (with 8 physical channels
and a 64-slot LUT) accepts it, masking `-4` to slot `60`: the build does not
fail with `InvalidConfiguration`. -/
theorem negative_value_accepted_cex :
    assign_channel_indices 8 64 [((0 : Int), ChannelVal.single (-4))]
      = .ok (writeAll (List.replicate 64 (8 : Int)) [(60, 0)], 1) := by
  rfl

/-- Claim C1, amended: the LUT build performs no range validation of the
physical values at all — it treats each value purely through its masked slot
`v & 0b111111`, so the build behaves identically on any dictionary and on
the same dictionary with every value replaced by its mask, and an
out-of-range (e.g. negative) value is silently accepted rather than
rejected. -/
theorem lut_build_masks_values (N D : Nat) (input : List (Int × ChannelVal)) :
    assign_channel_indices N D (input.map (fun kv => (kv.1, maskVals kv.2)))
      = assign_channel_indices N D input := by
  unfold assign_channel_indices
  rw [List.length_map]
  have hdense : (∀ kv ∈ input.map (fun kv => (kv.1, maskVals kv.2)),
      0 ≤ kv.1 ∧ kv.1 < (input.length : Int)) ↔
      (∀ kv ∈ input, 0 ≤ kv.1 ∧ kv.1 < (input.length : Int)) := by
    rw [List.forall_mem_map]
  by_cases hd : ∀ kv ∈ input, 0 ≤ kv.1 ∧ kv.1 < (input.length : Int)
  · rw [if_pos (hdense.2 hd), if_pos hd, List.foldlM_map,
      foldlM_congr_fn (fun l kv => processItem_maskVals N l kv) input]
  · rw [if_neg (fun h => hd (hdense.1 h)), if_neg hd]

/-- Claim C8: whenever two values of the assignment dictionary (under any
keys) collide on the same slot index after masking with `0x3F`, the LUT
build fails. -/
theorem collision_rejected (N D : Nat) (input : List (Int × ChannelVal))
    (h : ¬ ((assignments input).map Prod.fst).Nodup) :
    ∃ e, assign_channel_indices N D input = .error e := by
  cases hres : assign_channel_indices N D input with
  | ok r =>
    exact absurd ((assign_ok_iff N D input r.1 r.2).1 (by rw [hres])).2.2.2.1 h
  | error e => exact ⟨e, rfl⟩

/-- Witness for C8, at the spec's own example: slot values `70` and `6` both
mask to slot `6`, and assigning both is rejected. -/
theorem collision_rejected_witness :
    ¬ ((assignments [((0 : Int), ChannelVal.single 70),
        ((1 : Int), ChannelVal.single 6)]).map Prod.fst).Nodup
    ∧ ∃ e, assign_channel_indices 8 64 [((0 : Int), ChannelVal.single 70),
        ((1 : Int), ChannelVal.single 6)] = .error e :=
  ⟨by decide, collision_rejected 8 64 _ (by decide)⟩

/-- Claim C9: every LUT accepted by the build has length `lut_channels_depth`,
holds the assigning channel key in every slot targeted by some masked value,
and holds the discard sentinel `number_of_channels` in every other slot. -/
theorem lut_build_output_spec (N D : Nat) (input : List (Int × ChannelVal))
    (lut : List Int) (K : Nat)
    (hok : assign_channel_indices N D input = .ok (lut, K)) :
    lut.length = D
    ∧ (∀ p ∈ assignments input, lut.getD p.1 0 = p.2)
    ∧ (∀ i, i < D → (∀ p ∈ assignments input, p.1 ≠ i) → lut.getD i 0 = (N : Int)) := by
  obtain ⟨hdense, hrange, hD, hnd, hlut, hK⟩ := (assign_ok_iff N D input lut K).1 hok
  subst hlut
  refine ⟨by rw [length_writeAll]; simp, ?_, ?_⟩
  · intro p hp
    exact writeAll_getD_mem _ _ p hnd (fun q hq => by simpa using hD q hq) hp
  · intro i hi hnot
    rw [writeAll_getD_notmem _ _ _ hnot]
    simp [List.getD_eq_getElem?_getD, List.getElem?_replicate, hi]

/-- Witness for C9 at the concrete assignment `{0: 6, 1: [2, 3]}` with 8
physical channels and a 64-slot LUT. -/
theorem lut_build_output_spec_witness :
    (writeAll (List.replicate 64 (8 : Int)) [(6, 0), (2, 1), (3, 1)]).length = 64
    ∧ (∀ p ∈ assignments [((0 : Int), ChannelVal.single 6),
        ((1 : Int), ChannelVal.multi [2, 3])],
        (writeAll (List.replicate 64 (8 : Int)) [(6, 0), (2, 1), (3, 1)]).getD p.1 0 = p.2)
    ∧ (∀ i, i < 64 → (∀ p ∈ assignments [((0 : Int), ChannelVal.single 6),
        ((1 : Int), ChannelVal.multi [2, 3])], p.1 ≠ i) →
        (writeAll (List.replicate 64 (8 : Int)) [(6, 0), (2, 1), (3, 1)]).getD i 0 = (8 : Int)) :=
  lut_build_output_spec 8 64
    [((0 : Int), ChannelVal.single 6), ((1 : Int), ChannelVal.multi [2, 3])] _ 2 (by rfl)

lemma assignments_cons (kv : Int × ChannelVal) (l : List (Int × ChannelVal)) :
    assignments (kv :: l) = itemAssigns kv ++ assignments l := by
  simp [assignments]

lemma assignments_default (l : List Nat) (h : ∀ i ∈ l, i + 1 < 64) :
    assignments (l.map (fun (i : Nat) => ((i : Int), ChannelVal.single ((i : Int) + 1))))
      = l.map (fun (i : Nat) => (i + 1, (i : Int))) := by
  induction l with
  | nil => rfl
  | cons i l ih =>
    rw [List.map_cons, assignments_cons,
      ih (fun j hj => h j (List.mem_cons_of_mem i hj)), List.map_cons]
    have hitem : itemAssigns ((i : Int), ChannelVal.single ((i : Int) + 1))
        = [(i + 1, (i : Int))] := by
      have hc : ((i : Int) + 1) = ((i + 1 : Nat) : Int) := by push_cast; ring
      show [(maskSlot ((i : Int) + 1), (i : Int))] = [(i + 1, (i : Int))]
      rw [hc, maskSlot_of_lt (h i (List.mem_cons_self i l))]
    rw [hitem]
    rfl

/-- Claim C10: `set_lut_channels` with `channels=None` builds the default
assignment `{i: i + 1 for i in range(number_of_channels)}`: the build
succeeds, the desired-channel count becomes `number_of_channels`, slot
`i + 1` of the LUT routes to logical channel `i` for every
`i < number_of_channels`, and all other slots hold the discard sentinel
(stated for `number_of_channels < 64` and a LUT deep enough to hold slot
`number_of_channels`, as in the hardware's 64-slot LUT). -/
theorem default_lut_channels (N D : Nat) (hN : N < 64) (hD : N < D) :
    ∃ lut : List Int,
      assign_channel_indices N D (defaultChannels N) = .ok (lut, N)
      ∧ lut.length = D
      ∧ (∀ i, i < N → lut.getD (i + 1) 0 = (i : Int))
      ∧ (∀ j, j < D → (j = 0 ∨ N < j) → lut.getD j 0 = (N : Int)) := by
  have hassign : assignments (defaultChannels N)
      = (List.range N).map (fun (i : Nat) => (i + 1, (i : Int))) :=
    assignments_default (List.range N) (fun i hi => by
      have := List.mem_range.1 hi; omega)
  have hmem : ∀ p ∈ assignments (defaultChannels N),
      ∃ i, i < N ∧ p = (i + 1, (i : Int)) := by
    rw [hassign]
    intro p hp
    obtain ⟨i, hi, rfl⟩ := List.mem_map.1 hp
    exact ⟨i, List.mem_range.1 hi, rfl⟩
  have hlenN : (defaultChannels N).length = N := by
    rw [defaultChannels, List.length_map, List.length_range]
  have hkeys : ∀ kv ∈ defaultChannels N, ∃ i, i < N ∧ kv.1 = (i : Int) := by
    intro kv hkv
    obtain ⟨i, hi, rfl⟩ := List.mem_map.1 hkv
    exact ⟨i, List.mem_range.1 hi, rfl⟩
  have hnd : ((assignments (defaultChannels N)).map Prod.fst).Nodup := by
    rw [hassign, List.map_map]
    exact (List.nodup_range N).map (fun a b hab => by
      have : a + 1 = b + 1 := hab
      omega)
  have hslots : ∀ p ∈ assignments (defaultChannels N), p.1 < D := by
    intro p hp
    obtain ⟨i, hi, rfl⟩ := hmem p hp
    show i + 1 < D
    omega
  have hok : assign_channel_indices N D (defaultChannels N)
      = .ok (writeAll (List.replicate D (N : Int)) (assignments (defaultChannels N)), N) := by
    rw [assign_ok_iff]
    refine ⟨?_, ?_, hslots, hnd, rfl, hlenN.symm⟩
    · intro kv hkv
      obtain ⟨i, hi, he⟩ := hkeys kv hkv
      rw [he, hlenN]
      exact ⟨Int.natCast_nonneg i, by exact_mod_cast hi⟩
    · intro kv hkv
      obtain ⟨i, hi, he⟩ := hkeys kv hkv
      rw [he]
      exact ⟨Int.natCast_nonneg i, by exact_mod_cast hi⟩
  refine ⟨writeAll (List.replicate D (N : Int)) (assignments (defaultChannels N)),
    hok, ?_, ?_, ?_⟩
  · rw [length_writeAll]; simp
  · intro i hi
    have hp : (i + 1, (i : Int)) ∈ assignments (defaultChannels N) := by
      rw [hassign]
      exact List.mem_map_of_mem (fun (i : Nat) => (i + 1, (i : Int))) (List.mem_range.2 hi)
    exact writeAll_getD_mem _ _ (i + 1, (i : Int)) hnd
      (fun q hq => by simpa using hslots q hq) hp
  · intro j hj hcase
    rw [writeAll_getD_notmem _ _ _ (fun p hp => by
      obtain ⟨i, hi, rfl⟩ := hmem p hp
      show i + 1 ≠ j
      omega)]
    simp [List.getD_eq_getElem?_getD, List.getElem?_replicate, hj]

/-- Witness for C10 with 8 physical channels and a 64-slot LUT. -/
theorem default_lut_channels_witness :
    8 < 64
    ∧ ∃ lut : List Int,
      assign_channel_indices 8 64 (defaultChannels 8) = .ok (lut, 8)
      ∧ lut.length = 64
      ∧ (∀ i, i < 8 → lut.getD (i + 1) 0 = (i : Int))
      ∧ (∀ j, j < 64 → (j = 0 ∨ 8 < j) → lut.getD j 0 = (8 : Int)) :=
  ⟨by decide, default_lut_channels 8 64 (by decide) (by decide)⟩

/-- Claim C7, counterexample: the assignment `{0: 70}` is accepted by the
build (8 physical channels, 64-slot LUT), but decoding the built LUT with
`get_lut_channels`'s grouping returns `{0: [6]}` — and `[6]` is not a
reordering of `[70]`, so `decode(build(map)) == map` up to reordering fails
for this accepted map. -/
theorem lut_roundtrip_unmasked_cex :
    (assign_channel_indices 8 64 [((0 : Int), ChannelVal.single 70)]).map
        (fun r => listToDict 8 r.1) = .ok [((0 : Int), [6])]
    ∧ ¬ ([(6 : Nat)].Perm [70]) := by
  constructor
  · rfl
  · decide

/-- Claim C7, amended: for every assignment map accepted by the build,
decoding the built LUT returns the map with every value replaced by its
masked slot `v & 0x3F` (up to reordering, and omitting keys with no
values): channel `c`'s decoded slot list contains slot `s` exactly when the
map assigns some value masking to `s` under key `c`.  For maps whose values
are already in `[0, 64)` the masked slots are the values themselves and this
is the original round-trip up to reordering. -/
theorem lut_roundtrip_masked (N D : Nat) (input : List (Int × ChannelVal))
    (lut : List Int) (K : Nat)
    (hok : assign_channel_indices N D input = .ok (lut, K)) (c : Int) (s : Nat) :
    (∃ slots, (c, slots) ∈ listToDict N lut ∧ s ∈ slots)
      ↔ (s, c) ∈ assignments input := by
  obtain ⟨hdense, hrange, hD, hnd, hlut, hK⟩ := (assign_ok_iff N D input lut K).1 hok
  have hlen : lut.length = D := by rw [hlut, length_writeAll]; simp
  constructor
  · rintro ⟨slots, hmem, hs⟩
    rw [mem_listToDict] at hmem
    obtain ⟨hcl, hcN, rfl⟩ := hmem
    rw [mem_slotIndices] at hs
    by_cases hcase : ∀ p ∈ assignments input, p.1 ≠ s
    · exfalso
      have hsent : lut.getD s 0 = (N : Int) := by
        rw [hlut, writeAll_getD_notmem _ _ _ hcase]
        simp [List.getD_eq_getElem?_getD, List.getElem?_replicate, hlen ▸ hs.1]
      rw [hs.2] at hsent
      omega
    · push_neg at hcase
      obtain ⟨p, hp, hps⟩ := hcase
      have hval : lut.getD p.1 0 = p.2 := by
        rw [hlut]
        exact writeAll_getD_mem _ _ p hnd (fun q hq => by simpa using hD q hq) hp
      rw [hps, hs.2] at hval
      have hpe : p = (s, c) := by
        cases p
        simp only [] at hps hval
        rw [hps, hval]
      rwa [hpe] at hp
  · intro hp
    have hsD : s < D := by simpa using hD (s, c) hp
    have hslut : s < lut.length := hlen ▸ hsD
    have hval : lut.getD s 0 = c := by
      rw [hlut]
      exact writeAll_getD_mem _ _ (s, c) hnd (fun q hq => by simpa using hD q hq) hp
    have hcN : c < (N : Int) := by
      obtain ⟨kv, hkv, hpe⟩ := assignments_key_mem hp
      have h2 := (hrange kv hkv).2
      simp only [] at hpe
      omega
    refine ⟨slotIndices lut c, ?_, ?_⟩
    · rw [mem_listToDict]
      refine ⟨?_, hcN, rfl⟩
      rw [getD_of_lt 0 hslut] at hval
      exact hval ▸ List.get_mem lut s hslut
    · rw [mem_slotIndices]
      exact ⟨hslut, hval⟩

/-- Witness for the amended C7, at the map `{0: 70}`: slot 6 is decoded
under channel 0, matching the assignment of masked value `70 & 0x3F = 6`. -/
theorem lut_roundtrip_masked_witness :
    (∃ slots, ((0 : Int), slots) ∈ listToDict 8
        (writeAll (List.replicate 64 (8 : Int)) [(6, 0)]) ∧ 6 ∈ slots)
      ↔ ((6 : Nat), (0 : Int)) ∈ assignments [((0 : Int), ChannelVal.single 70)] :=
  lut_roundtrip_masked 8 64 [((0 : Int), ChannelVal.single 70)]
    (writeAll (List.replicate 64 (8 : Int)) [(6, 0)]) 1 (by rfl) 0 6

lemma length_slideMatrix (K rows : Nat) (added : List (Option Nat)) :
    ∀ (ch : Nat) (m : List (List (Option Nat))),
      (slideMatrix K rows added ch m).length = m.length := by
  intro ch m
  induction m generalizing ch with
  | nil => rfl
  | cons row rest ih => simp [slideMatrix, ih]

lemma slideMatrix_zero (K : Nat) (added : List (Option Nat)) :
    ∀ (ch : Nat) (m : List (List (Option Nat))), slideMatrix K 0 added ch m = m := by
  intro ch m
  induction m generalizing ch with
  | nil => rfl
  | cons row rest ih => simp [slideMatrix, slideRow, ih]

lemma getD_slideMatrix (K rows : Nat) (added : List (Option Nat)) :
    ∀ (m : List (List (Option Nat))) (ch0 i : Nat), i < m.length →
      (slideMatrix K rows added ch0 m).getD i []
        = slideRow K rows added (ch0 + i) (m.getD i []) := by
  intro m
  induction m with
  | nil => intro ch0 i h; cases h
  | cons row rest ih =>
    intro ch0 i h
    cases i with
    | zero => simp [slideMatrix]
    | succ i =>
      have hi : i < rest.length := by simpa using h
      show (slideMatrix K rows added (ch0 + 1) rest).getD i []
        = slideRow K rows added (ch0 + (i + 1)) (rest.getD i [])
      rw [ih (ch0 + 1) i hi]
      congr 1
      omega

lemma mem_slideMatrix {K rows : Nat} {added : List (Option Nat)} :
    ∀ {ch : Nat} {m : List (List (Option Nat))} {row : List (Option Nat)},
      row ∈ slideMatrix K rows added ch m →
      ∃ ch2 row0, row0 ∈ m ∧ row = slideRow K rows added ch2 row0 := by
  intro ch m
  induction m generalizing ch with
  | nil => intro row h; cases h
  | cons r rest ih =>
    intro row h
    rcases List.mem_cons.1 h with h1 | h2
    · exact ⟨ch, r, List.mem_cons_self r rest, h1⟩
    · obtain ⟨c2, r0, hr0, he⟩ := ih h2
      exact ⟨c2, r0, List.mem_cons_of_mem r hr0, he⟩

lemma length_slideRow (K rows : Nat) (added : List (Option Nat)) (ch : Nat)
    (row : List (Option Nat)) (h : rows ≤ row.length) :
    (slideRow K rows added ch row).length = row.length := by
  simp [slideRow]
  omega

lemma sub_div_mul_eq_mod (n K : Nat) : n - n / K * K = n % K := by
  have h := Nat.div_add_mod n K
  rw [Nat.mul_comm] at h
  generalize n / K * K = a at h ⊢
  generalize n % K = b at h ⊢
  omega

/-- Claim C6: a `read_data` call whose burst is empty or holds only zero
dummy words leaves the rolling matrix and the pending tail (and the whole
decoder state) unchanged, given the invariant that the pending tail held
fewer than `number_of_desired_channels` scalars before the call. -/
theorem empty_decode_noop (s : DecState) (burst : List Nat)
    (hz : burst.filter (fun w => w ≠ 0) = [])
    (hrem : s.remaining_counters_array.length < s.number_of_desired_channels) :
    read_data s burst = s := by
  have hws : workingSeq s.remaining_counters_array burst = s.remaining_counters_array := by
    rw [workingSeq, hz]
    simp
  have hrows : addedRows s burst = 0 := by
    rw [addedRows, hws]
    exact Nat.div_eq_of_lt hrem
  have h1 : (read_data s burst).data_array = s.data_array := by
    show slideMatrix s.number_of_desired_channels (min (addedRows s burst) s.capture_size)
      (truncatedData s burst) 0 s.data_array = s.data_array
    rw [hrows, Nat.zero_min]
    exact slideMatrix_zero _ _ 0 s.data_array
  have h2 : (read_data s burst).remaining_counters_array = s.remaining_counters_array := by
    show (workingSeq s.remaining_counters_array burst).drop
      (addedRows s burst * s.number_of_desired_channels) = _
    rw [hrows, hws]
    simp
  exact DecState.ext rfl rfl h1 h2

/-- Witness for C6: an all-zero burst against a mid-stream state (pending
tail `[7]`, `K = 2`, `capture_size = 3`) changes nothing. -/
theorem empty_decode_noop_witness :
    ([0, 0, 0].filter (fun w => w ≠ 0) = []
      ∧ (DecState.mk 2 3 [[some 1, none, none], [none, some 2, none]]
          [some 7]).remaining_counters_array.length < 2)
    ∧ read_data (DecState.mk 2 3 [[some 1, none, none], [none, some 2, none]]
        [some 7]) [0, 0, 0]
      = DecState.mk 2 3 [[some 1, none, none], [none, some 2, none]] [some 7] :=
  ⟨⟨by decide, by decide⟩,
    empty_decode_noop (DecState.mk 2 3 [[some 1, none, none], [none, some 2, none]]
      [some 7]) [0, 0, 0] (by decide) (by decide)⟩

/-- Claim C3: each `read_data` call consumes exactly
`floor(len(workingSequence) / K) * K` scalars of the working sequence into
the matrix and keeps the remainder — always fewer than `K` scalars — as the
new pending tail; concretely with `K = 3`, four valid words leave one scalar
pending (after one complete row), and a following call with two more valid
words completes exactly one more row, the row whose scalars span the two
calls. -/
theorem row_split_pending (s : DecState) (burst : List Nat)
    (hK : 0 < s.number_of_desired_channels) :
    ((read_data s burst).remaining_counters_array
        = (workingSeq s.remaining_counters_array burst).drop
            (addedRows s burst * s.number_of_desired_channels)
      ∧ (addedRows s burst ≤ s.capture_size →
          truncatedData s burst
            = (workingSeq s.remaining_counters_array burst).take
                (addedRows s burst * s.number_of_desired_channels))
      ∧ (read_data s burst).remaining_counters_array.length
          = (workingSeq s.remaining_counters_array burst).length
              % s.number_of_desired_channels
      ∧ (read_data s burst).remaining_counters_array.length
          < s.number_of_desired_channels)
    ∧ (read_data (initState 3 10) [0x80000001, 0x80000002, 0x80000003,
        0x80000004]).remaining_counters_array = [some 4]
    ∧ addedRows (initState 3 10) [0x80000001, 0x80000002, 0x80000003, 0x80000004] = 1
    ∧ (read_data (read_data (initState 3 10) [0x80000001, 0x80000002,
        0x80000003, 0x80000004]) [0x80000005, 0x80000006]).remaining_counters_array = []
    ∧ addedRows (read_data (initState 3 10) [0x80000001, 0x80000002, 0x80000003,
        0x80000004]) [0x80000005, 0x80000006] = 1
    ∧ (read_data (read_data (initState 3 10) [0x80000001, 0x80000002,
        0x80000003, 0x80000004]) [0x80000005, 0x80000006]).data_array
      = [List.replicate 8 none ++ [some 1, some 4],
         List.replicate 8 none ++ [some 2, some 5],
         List.replicate 8 none ++ [some 3, some 6]] := by
  refine ⟨⟨rfl, ?_, ?_, ?_⟩, by decide, by decide, by decide, by decide, by decide⟩
  · intro h
    rw [truncatedData, if_neg (Nat.not_lt.2 h), addedData]
  · show ((workingSeq s.remaining_counters_array burst).drop
      (addedRows s burst * s.number_of_desired_channels)).length = _
    rw [List.length_drop, addedRows, sub_div_mul_eq_mod]
  · show ((workingSeq s.remaining_counters_array burst).drop
      (addedRows s burst * s.number_of_desired_channels)).length < _
    rw [List.length_drop, addedRows, sub_div_mul_eq_mod]
    exact Nat.mod_lt _ hK

/-- Witness for C3 at the spec's own example: `K = 3`, four valid words in
one call leave a pending tail shorter than `K`. -/
theorem row_split_pending_witness :
    0 < (initState 3 10).number_of_desired_channels
    ∧ (read_data (initState 3 10) [0x80000001, 0x80000002, 0x80000003,
        0x80000004]).remaining_counters_array.length < 3 :=
  ⟨by decide, (row_split_pending (initState 3 10) [0x80000001, 0x80000002,
      0x80000003, 0x80000004] (by decide)).1.2.2.2⟩

lemma getD_drop {α : Type} (l : List α) (n i : Nat) (d : α) :
    (l.drop n).getD i d = l.getD (n + i) d := by
  simp [List.getD_eq_getElem?_getD, List.getElem?_drop]

lemma getD_take {α : Type} {l : List α} {m i : Nat} (d : α) (h : i < m) :
    (l.take m).getD i d = l.getD i d := by
  simp [List.getD_eq_getElem?_getD, List.getElem?_take, h]

lemma map_congr_mem {α β : Type} {f g : α → β} :
    ∀ {l : List α}, (∀ a ∈ l, f a = g a) → l.map f = l.map g := by
  intro l
  induction l with
  | nil => intro _; rfl
  | cons x xs ih =>
    intro h
    rw [List.map_cons, List.map_cons, h x (List.mem_cons_self x xs),
      ih (fun a ha => h a (List.mem_cons_of_mem x ha))]

/-- Claim C5: the rolling matrix keeps its `K × capture_size` shape — each
`read_data` call drops exactly the leftmost (clamped) `completeRows` columns
of every channel row and appends the same number of fresh columns on the
right, so a matrix of shape `(K, capture_size)` before the call has shape
`(K, capture_size)` after it. -/
theorem rolling_matrix_shape (s : DecState) (burst : List Nat)
    (hlen : s.data_array.length = s.number_of_desired_channels)
    (hshape : ∀ row ∈ s.data_array, row.length = s.capture_size) :
    (read_data s burst).data_array.length = s.number_of_desired_channels
    ∧ (∀ row ∈ (read_data s burst).data_array, row.length = s.capture_size)
    ∧ (∀ ch, ch < s.data_array.length →
        ∃ fresh : List (Option Nat),
          fresh.length = min (addedRows s burst) s.capture_size
          ∧ (read_data s burst).data_array.getD ch []
            = (s.data_array.getD ch []).drop (min (addedRows s burst) s.capture_size)
              ++ fresh) := by
  refine ⟨?_, ?_, ?_⟩
  · show (slideMatrix s.number_of_desired_channels (min (addedRows s burst) s.capture_size)
      (truncatedData s burst) 0 s.data_array).length = _
    rw [length_slideMatrix, hlen]
  · intro row hrow
    have hmem : row ∈ slideMatrix s.number_of_desired_channels
        (min (addedRows s burst) s.capture_size) (truncatedData s burst) 0 s.data_array :=
      hrow
    obtain ⟨ch2, row0, hrow0, rfl⟩ := mem_slideMatrix hmem
    rw [length_slideRow]
    · exact hshape row0 hrow0
    · rw [hshape row0 hrow0]
      exact Nat.min_le_right _ _
  · intro ch hch
    refine ⟨(List.range (min (addedRows s burst) s.capture_size)).map
      (fun t => (truncatedData s burst).getD
        (t * s.number_of_desired_channels + ch) none), by simp, ?_⟩
    have hgd := getD_slideMatrix s.number_of_desired_channels
      (min (addedRows s burst) s.capture_size) (truncatedData s burst) s.data_array 0 ch hch
    rw [Nat.zero_add] at hgd
    exact hgd

/-- Witness for C5 at `K = 2`, `capture_size = 3` with a three-word burst
(one complete row). -/
theorem rolling_matrix_shape_witness :
    ((initState 2 3).data_array.length = 2
      ∧ (∀ row ∈ (initState 2 3).data_array, row.length = 3))
    ∧ (read_data (initState 2 3) [0x80000001, 0x80000002,
        0x80000003]).data_array.length = 2
    ∧ (∀ row ∈ (read_data (initState 2 3) [0x80000001, 0x80000002,
        0x80000003]).data_array, row.length = 3) :=
  ⟨⟨by decide, by decide⟩,
    (rolling_matrix_shape (initState 2 3) [0x80000001, 0x80000002, 0x80000003]
      (by decide) (by decide)).1,
    (rolling_matrix_shape (initState 2 3) [0x80000001, 0x80000002, 0x80000003]
      (by decide) (by decide)).2.1⟩

/-- Claim C4: when a call completes more than `capture_size` rows, only the
most recent `capture_size` rows' worth of scalars reach the matrix — the
oldest `(completeRows - capture_size) * K` consumed scalars are dropped
entirely, and every channel row is rebuilt from the tail of the working
sequence; concretely, `capture_size = 2`, `K = 1` and five valid words yield
the matrix `[[4, 5]]`, the last two of the five rows. -/
theorem overflow_truncation (s : DecState) (burst : List Nat)
    (hlen : s.data_array.length = s.number_of_desired_channels)
    (hshape : ∀ row ∈ s.data_array, row.length = s.capture_size)
    (hover : s.capture_size < addedRows s burst) :
    (∀ ch, ch < s.number_of_desired_channels →
        (read_data s burst).data_array.getD ch []
          = (List.range s.capture_size).map (fun t =>
              (workingSeq s.remaining_counters_array burst).getD
                ((addedRows s burst - s.capture_size) * s.number_of_desired_channels
                  + t * s.number_of_desired_channels + ch) none))
    ∧ (read_data (initState 1 2) [0x80000001, 0x80000002, 0x80000003,
        0x80000004, 0x80000005]).data_array = [[some 4, some 5]] := by
  constructor
  · intro ch hch
    have hch2 : ch < s.data_array.length := by rw [hlen]; exact hch
    have hmin : min (addedRows s burst) s.capture_size = s.capture_size :=
      Nat.min_eq_right (Nat.le_of_lt hover)
    have hgd := getD_slideMatrix s.number_of_desired_channels
      (min (addedRows s burst) s.capture_size) (truncatedData s burst) s.data_array 0 ch hch2
    rw [Nat.zero_add, hmin] at hgd
    have hrowmem : s.data_array.getD ch [] ∈ s.data_array := by
      rw [getD_of_lt [] hch2]
      exact List.get_mem s.data_array ch hch2
    have hrowlen : (s.data_array.getD ch []).length = s.capture_size :=
      hshape _ hrowmem
    have hdrop : (s.data_array.getD ch []).drop s.capture_size = [] := by
      rw [← hrowlen]
      exact List.drop_length _
    show (slideMatrix s.number_of_desired_channels
        (min (addedRows s burst) s.capture_size) (truncatedData s burst)
        0 s.data_array).getD ch [] = _
    rw [hmin, hgd, slideRow, hdrop, List.nil_append]
    apply map_congr_mem
    intro t ht
    have htC : t < s.capture_size := List.mem_range.1 ht
    have htd : truncatedData s burst
        = ((workingSeq s.remaining_counters_array burst).take
            (addedRows s burst * s.number_of_desired_channels)).drop
          (addedRows s burst * s.number_of_desired_channels
            - s.capture_size * s.number_of_desired_channels) := by
      rw [truncatedData, if_pos hover, addedData]
    have h1 : t * s.number_of_desired_channels + ch
        < s.capture_size * s.number_of_desired_channels := by
      have h2 : t * s.number_of_desired_channels + ch
          < (t + 1) * s.number_of_desired_channels := by
        rw [Nat.succ_mul]
        omega
      exact lt_of_lt_of_le h2 (Nat.mul_le_mul_right _ (by omega))
    have h3 : s.capture_size * s.number_of_desired_channels
        ≤ addedRows s burst * s.number_of_desired_channels :=
      Nat.mul_le_mul_right _ (Nat.le_of_lt hover)
    have h4 : addedRows s burst * s.number_of_desired_channels
          - s.capture_size * s.number_of_desired_channels
          + (t * s.number_of_desired_channels + ch)
        < addedRows s burst * s.number_of_desired_channels :=
      calc addedRows s burst * s.number_of_desired_channels
            - s.capture_size * s.number_of_desired_channels
            + (t * s.number_of_desired_channels + ch)
          < addedRows s burst * s.number_of_desired_channels
              - s.capture_size * s.number_of_desired_channels
              + s.capture_size * s.number_of_desired_channels :=
            Nat.add_lt_add_left h1 _
        _ = addedRows s burst * s.number_of_desired_channels := Nat.sub_add_cancel h3
    rw [htd, getD_drop, getD_take none h4]
    congr 1
    rw [Nat.sub_mul]
    exact (Nat.add_assoc _ _ _).symm
  · decide

/-- Witness for C4 at the spec's own example: `capture_size = 2`, `K = 1`,
a single call producing five complete rows keeps only the last two. -/
theorem overflow_truncation_witness :
    ((initState 1 2).data_array.length = 1
      ∧ (∀ row ∈ (initState 1 2).data_array, row.length = 2)
      ∧ 2 < addedRows (initState 1 2) [0x80000001, 0x80000002, 0x80000003,
          0x80000004, 0x80000005])
    ∧ (read_data (initState 1 2) [0x80000001, 0x80000002, 0x80000003,
        0x80000004, 0x80000005]).data_array = [[some 4, some 5]] :=
  ⟨⟨by decide, by decide, by decide⟩,
    (overflow_truncation (initState 1 2) [0x80000001, 0x80000002, 0x80000003,
      0x80000004, 0x80000005] (by decide) (by decide) (by decide)).2⟩

lemma flatMap_congr_mem {α β : Type} {f g : α → List β} :
    ∀ {l : List α}, (∀ a ∈ l, f a = g a) → l.flatMap f = l.flatMap g := by
  intro l
  induction l with
  | nil => intro _; rfl
  | cons x xs ih =>
    intro h
    rw [List.flatMap_cons, List.flatMap_cons, h x (List.mem_cons_self x xs),
      ih (fun a ha => h a (List.mem_cons_of_mem x ha))]

lemma expandWord_eq_ref (w : Nat) (hw : w < 2 ^ 32) : expandWord w = expandWordRef w := by
  have hmask : w &&& 0x7FFFFFFF = w % 2 ^ 31 := by
    have h := Nat.and_pow_two_sub_one_eq_mod w 31
    norm_num at h ⊢
    exact h
  have hand : w &&& 0x80000000 = (w.testBit 31).toNat * 2 ^ 31 := by
    have h := Nat.and_two_pow w 31
    norm_num at h ⊢
    exact h
  have hbit : (w &&& 0x80000000 = 0) ↔ ¬ 2 ^ 31 ≤ w := by
    rw [hand]
    constructor
    · intro h0 hle
      have hlt2 : w / 2 ^ 31 < 2 := by
        apply Nat.div_lt_of_lt_mul
        norm_num at hw ⊢
        omega
      have hge1 : 1 ≤ w / 2 ^ 31 := (Nat.one_le_div_iff (by positivity)).2 hle
      have hdiv : w / 2 ^ 31 = 1 := by omega
      rw [Nat.testBit_to_div_mod, hdiv] at h0
      norm_num at h0
    · intro hlt
      have hdiv : w / 2 ^ 31 = 0 := Nat.div_eq_of_lt (by omega)
      rw [Nat.testBit_to_div_mod, hdiv]
      norm_num
  unfold expandWord expandWordRef
  by_cases hc : 2 ^ 31 ≤ w
  · rw [if_neg (fun h0 => (hbit.1 h0) hc), if_pos hc, hmask]
  · rw [if_pos (hbit.2 hc), if_neg hc]

/-- Claim C2: for bursts of 32-bit words, the decode expansion of `read_data`
equals the reference of the spec — discard zero words, keep order, start from
the carried pending tail, append the low 31 bits of each bit-31-tagged word
as one scalar, and expand each untagged word into its full value many missing
markers, the gap count not divided by `K`; in particular decoding
`[0x00000003, 0x80000005]` with `K = 1` makes the last four matrix columns
`[NaN, NaN, NaN, 5]`. -/
theorem gap_expansion (s : DecState) (burst : List Nat)
    (hw : ∀ w ∈ burst, w < 2 ^ 32) :
    workingSeq s.remaining_counters_array burst
        = s.remaining_counters_array
          ++ (burst.filter (fun w => w ≠ 0)).flatMap expandWordRef
    ∧ (read_data (initState 1 10) [3, 0x80000005]).data_array
        = [List.replicate 6 none ++ [none, none, none, some 5]] := by
  constructor
  · rw [workingSeq]
    congr 1
    apply flatMap_congr_mem
    intro w hwf
    exact expandWord_eq_ref w (hw w (List.mem_of_mem_filter hwf))
  · decide

/-- Witness for C2 at the spec's own example burst `[0x00000003, 0x80000005]`
with `K = 1`. -/
theorem gap_expansion_witness :
    (∀ w ∈ [3, 0x80000005], w < 2 ^ 32)
    ∧ (workingSeq (initState 1 10).remaining_counters_array [3, 0x80000005]
        = (initState 1 10).remaining_counters_array
          ++ ([3, 0x80000005].filter (fun w => w ≠ 0)).flatMap expandWordRef
      ∧ (read_data (initState 1 10) [3, 0x80000005]).data_array
        = [List.replicate 6 none ++ [none, none, none, some 5]]) :=
  ⟨by decide, gap_expansion (initState 1 10) [3, 0x80000005] (by decide)⟩
